import Mathlib

/-!
Shallow embedding of the CrowdStrike `foundry-fn-go` SDK core
(request/response marshalling, router, handler adapters, file
materialization) together with proofs checking the natural-language
specification against the embedded code.

Byte streams are modelled as `List Nat` (each entry a byte value), Go
maps as association lists looked up by key, and Go `io` failures as
explicit boolean/`Except` outcomes.  Machine integers that can carry
negative values (`int`) are modelled as `Int`.
-/

namespace FoundryFnGo

/-- `APIError` from `sdk.go`: a structured error shared back to the caller. -/
structure APIError where
  code : Int
  message : String
deriving DecidableEq, Repr

/-- `Response` from `sdk.go`: body (opaque marshaler, modelled as an optional
rendered string), explicit status code, structured errors, headers. -/
structure Response where
  body : Option String := none
  code : Int := 0
  errors : List APIError := []
  headers : List (String × List String) := []
deriving DecidableEq, Repr

/-- One step of the error-code maximum loop in `Response.StatusCode`
(`if e.Code > code { code = e.Code }`). -/
def goMaxStep (c : Int) (e : APIError) : Int :=
  if e.code > c then e.code else c

/-- `Response.StatusCode` from `sdk.go`: when `Code` is unset (zero) and
errors exist, scan the errors keeping the largest code seen; default the
result to 200 when it is still zero. -/
def Response.statusCode (r : Response) : Int :=
  let code := r.code
  let code := if code = 0 ∧ r.errors ≠ [] then r.errors.foldl goMaxStep code else code
  if code = 0 then 200 else code

/-- `ErrResp` from `sdk.go`: an errors-only response whose `Code` is set to
the resolved status code. -/
def ErrResp (errs : List APIError) : Response :=
  let resp : Response := { errors := errs }
  { resp with code := resp.statusCode }

/-- The claim's reading of "the maximum Code field over all entries of
`r.Errors`": the genuine maximum of the codes of a non-empty error list
(stated from the spec's words, for comparison with `Response.statusCode`). -/
def maxErrorCode : List APIError → Int
  | [] => 0
  | e :: rest => rest.foldl (fun acc x => max acc x.code) e.code

/- ### Lemmas about the status-code fold -/

theorem goMaxStep_eq_max (c : Int) (e : APIError) : goMaxStep c e = max c e.code := by
  unfold goMaxStep
  rcases le_or_lt e.code c with h | h
  · simp [not_lt.mpr h, max_eq_left h]
  · simp [h, max_eq_right h.le]

theorem foldl_goMaxStep_eq_foldl_max (es : List APIError) (a : Int) :
    es.foldl goMaxStep a = es.foldl (fun acc x => max acc x.code) a := by
  induction es generalizing a with
  | nil => rfl
  | cons e rest ih => simp [List.foldl_cons, goMaxStep_eq_max, ih]

theorem init_le_foldl_max (es : List APIError) (a : Int) :
    a ≤ es.foldl (fun acc x => max acc x.code) a := by
  induction es generalizing a with
  | nil => simp
  | cons e rest ih => exact le_trans (le_max_left _ _) (ih (max a e.code))

theorem mem_le_foldl_max (es : List APIError) :
    ∀ (a : Int) (e : APIError), e ∈ es → e.code ≤ es.foldl (fun acc x => max acc x.code) a := by
  induction es with
  | nil =>
    intro a e he
    cases he
  | cons x rest ih =>
    intro a e he
    rcases List.mem_cons.mp he with h | h
    · subst h
      exact le_trans (le_max_right a e.code) (init_le_foldl_max rest _)
    · exact ih _ e h

theorem foldl_max_eq_init_or_mem (es : List APIError) :
    ∀ (a : Int), es.foldl (fun acc x => max acc x.code) a = a ∨
      ∃ e ∈ es, es.foldl (fun acc x => max acc x.code) a = e.code := by
  induction es with
  | nil =>
    intro a
    exact Or.inl rfl
  | cons x rest ih =>
    intro a
    simp only [List.foldl_cons]
    rcases ih (max a x.code) with h | ⟨e, he, hval⟩
    · rcases max_cases a x.code with ⟨hm, _⟩ | ⟨hm, _⟩
      · rw [hm] at h ⊢
        exact Or.inl h
      · rw [hm] at h ⊢
        exact Or.inr ⟨x, List.mem_cons_self x rest, h⟩
    · exact Or.inr ⟨e, List.mem_cons_of_mem x he, hval⟩

theorem foldl_max_pull_init (es : List APIError) (a : Int) :
    ∀ (b : Int), es.foldl (fun acc x => max acc x.code) (max a b) =
      max a (es.foldl (fun acc x => max acc x.code) b) := by
  induction es with
  | nil =>
    intro b
    rfl
  | cons x rest ih =>
    intro b
    simp only [List.foldl_cons]
    rw [max_assoc, ih]

theorem foldl_max_zero_eq_max_zero_maxErrorCode (es : List APIError) (h : es ≠ []) :
    es.foldl (fun acc x => max acc x.code) 0 = max 0 (maxErrorCode es) := by
  cases es with
  | nil => exact absurd rfl h
  | cons e rest =>
    rw [List.foldl_cons]
    show List.foldl (fun acc x => max acc x.code) (max 0 e.code) rest = _
    rw [foldl_max_pull_init rest 0 e.code]
    rfl

theorem maxErrorCode_is_max (es : List APIError) (h : es ≠ []) :
    (∃ e ∈ es, maxErrorCode es = e.code) ∧ ∀ e ∈ es, e.code ≤ maxErrorCode es := by
  cases es with
  | nil => exact absurd rfl h
  | cons e rest =>
    constructor
    · rcases foldl_max_eq_init_or_mem rest e.code with hv | ⟨x, hx, hv⟩
      · exact ⟨e, List.mem_cons_self e rest, hv⟩
      · exact ⟨x, List.mem_cons_of_mem e hx, hv⟩
    · intro x hx
      rcases List.mem_cons.mp hx with hxe | hxr
      · subst hxe
        exact init_le_foldl_max rest x.code
      · exact mem_le_foldl_max rest e.code x hxr

/-- C1 (counterexample): the claim says that when `Code` is zero and `Errors`
is non-empty, `StatusCode()` returns the maximum `Code` field over all error
entries.  For `Response{Errors: [{Code: 0, Message: "zero"}]}` that maximum is
`0`, yet `StatusCode()` returns `200`, refuting the claim as stated. -/
theorem statusCode_not_always_max_error_code :
    ¬ (Response.statusCode { code := 0, errors := [⟨0, "zero"⟩] } =
        maxErrorCode [⟨0, "zero"⟩]) := by
  decide

/-- C1 (amended): `StatusCode()` returns `Code` whenever it is nonzero;
otherwise, when `Errors` is non-empty and the maximum error code is positive,
it returns that maximum (an order-independent quantity: some entry attains it
and every entry is bounded by it); otherwise — no errors, or a maximum error
code that is not positive — it returns 200. -/
theorem statusCode_resolution (r : Response) :
    (r.code ≠ 0 → r.statusCode = r.code) ∧
    (r.code = 0 → r.errors ≠ [] → 0 < maxErrorCode r.errors →
      r.statusCode = maxErrorCode r.errors ∧
      (∃ e ∈ r.errors, maxErrorCode r.errors = e.code) ∧
      (∀ e ∈ r.errors, e.code ≤ maxErrorCode r.errors)) ∧
    (r.code = 0 → (r.errors = [] ∨ maxErrorCode r.errors ≤ 0) → r.statusCode = 200) := by
  refine ⟨?_, ?_, ?_⟩
  · intro hc
    unfold Response.statusCode
    simp only [hc, false_and, if_false, if_neg hc]
  · intro hc hne hpos
    have hfold : r.errors.foldl goMaxStep 0 = max 0 (maxErrorCode r.errors) := by
      rw [foldl_goMaxStep_eq_foldl_max, foldl_max_zero_eq_max_zero_maxErrorCode r.errors hne]
    have hmax0 : max 0 (maxErrorCode r.errors) = maxErrorCode r.errors := max_eq_right hpos.le
    refine ⟨?_, (maxErrorCode_is_max r.errors hne).1, (maxErrorCode_is_max r.errors hne).2⟩
    unfold Response.statusCode
    simp only [hc, hne, ne_eq, not_false_eq_true, and_self, if_true, if_pos]
    rw [hfold, hmax0]
    exact if_neg (by omega)
  · intro hc hcase
    unfold Response.statusCode
    rcases hcase with hnil | hle
    · simp [hc, hnil]
    · by_cases hne : r.errors = []
      · simp [hc, hne]
      · have hfold : r.errors.foldl goMaxStep 0 = max 0 (maxErrorCode r.errors) := by
          rw [foldl_goMaxStep_eq_foldl_max, foldl_max_zero_eq_max_zero_maxErrorCode r.errors hne]
        have hmax0 : max 0 (maxErrorCode r.errors) = 0 := max_eq_left hle
        simp only [hc, hne, ne_eq, not_false_eq_true, and_self, if_true, if_pos]
        rw [hfold, hmax0]
        simp

/-- C1 (witness): the amended resolution rule at concrete responses — an
explicit code of 201 wins; errors `[{500},{501},{400}]` with no explicit code
resolve to 501; no code and no errors resolve to 200. -/
theorem statusCode_resolution_witness :
    Response.statusCode { code := 201, errors := [⟨500, "a"⟩] } = 201 ∧
    Response.statusCode { code := 0, errors := [⟨500, "a"⟩, ⟨501, "b"⟩, ⟨400, "c"⟩] } = 501 ∧
    Response.statusCode { code := 0, errors := [] } = 200 := by
  refine ⟨?_, ?_, ?_⟩
  · exact (statusCode_resolution { code := 201, errors := [⟨500, "a"⟩] }).1 (by decide)
  · have h := (statusCode_resolution
      { code := 0, errors := [⟨500, "a"⟩, ⟨501, "b"⟩, ⟨400, "c"⟩] }).2.1
      rfl (by decide) (by decide)
    have hmax : maxErrorCode [⟨500, "a"⟩, ⟨501, "b"⟩, ⟨400, "c"⟩] = (501 : Int) := by decide
    rw [h.1, hmax]
  · exact (statusCode_resolution { code := 0, errors := [] }).2.2 rfl (Or.inl rfl)

/-- `ComplexPayload` from `complex_payload.go`: a materialized multi-part
body — the raw non-file input and a map from file name to file stream
(streams modelled as byte lists). -/
structure ComplexPayload where
  body : Option (List Nat) := none
  files : List (String × List Nat) := []
deriving DecidableEq, Repr

/-- The request body handed to a handler: either a plain byte stream
(`io.Reader`) or a `ComplexPayload`. -/
inductive ReqBody where
  | stream (bs : List Nat)
  | complex (c : ComplexPayload)
deriving DecidableEq, Repr

/-- `RequestOf` from `request.go`: the generic request handed to the runner. -/
structure RequestOf (α : Type) where
  fnID : String := ""
  fnVersion : Int := 0
  body : α
  context : String := ""
  headers : List (String × List String) := []
  queries : List (String × List String) := []
  url : String := ""
  method : String := ""
  accessToken : String := ""
  traceID : String := ""

/-- `Request` from `request.go`: a `RequestOf` whose body is an `io.Reader`. -/
abbrev Request := RequestOf ReqBody

/-- `Handler`/`HandlerFn` from `sdk.go`, with the (unused here) `context.Context`
argument dropped: a function from request to response. -/
abbrev Handler := Request → Response

/-- `Mux` from `request.go`: the set of registered routes, the set of
(method, route) pairs, and the map from (method, route) to handler.  Go's
`map[string]bool` sets are modelled as lists queried by membership, the
handler map as an association list. -/
structure Mux where
  routes : List String
  meth2Routes : List (String × String)
  handlers : List ((String × String) × Handler)

/-- `NewMux` from `request.go`: a mux with empty maps. -/
def NewMux : Mux := ⟨[], [], []⟩

/-- `Mux.registerRoute` from `request.go`.  Go panics (modelled as `none`)
when the route is empty or the (method, route) pair already has a handler;
the `h == nil` panic has no counterpart because Lean functions are total
values.  Otherwise all three maps gain the new entry. -/
def Mux.registerRoute (m : Mux) (method route : String) (h : Handler) : Option Mux :=
  if route = "" then none
  else if (m.handlers.lookup (method, route)).isSome then none
  else some
    { routes := route :: m.routes
      meth2Routes := (method, route) :: m.meth2Routes
      handlers := ((method, route), h) :: m.handlers }

/-- `Mux.Handle` from `request.go`: normalize an empty URL to `/`, answer 404
when the route is unknown, 405 when the route is known but not under this
method, and otherwise dispatch to the registered handler.  The final lookup
is guaranteed to succeed by the two guards (the `none` branch is dead code,
mirroring the Go comment "checks above guarantee this exists here"). -/
def Mux.handle (m : Mux) (r : Request) : Response :=
  let route := if r.url = "" then "/" else r.url
  if ¬ (route ∈ m.routes) then
    { errors := [⟨404, "route not found"⟩] }
  else if ¬ ((r.method, route) ∈ m.meth2Routes) then
    { errors := [⟨405, "method not allowed"⟩] }
  else
    match m.handlers.lookup (r.method, route) with
    | some h => h r
    | none => { errors := [] }

/-- A registration request: method, route, handler, as passed to
`Mux.registerRoute` by `Delete`/`Get`/`Post`/`Put`. -/
abbrev Registration := String × String × Handler

/-- Register a whole sequence of routes, failing (panicking) as soon as one
registration fails. -/
def Mux.registerAll (m : Mux) : List Registration → Option Mux
  | [] => some m
  | (method, route, h) :: rest =>
    match m.registerRoute method route h with
    | none => none
    | some m' => m'.registerAll rest

/-- Build a mux from a registration sequence starting from `NewMux`. -/
def buildMux (regs : List Registration) : Option Mux :=
  NewMux.registerAll regs

/-- A path was registered under some method in the sequence. -/
def routeRegistered (regs : List Registration) (route : String) : Prop :=
  ∃ p ∈ regs, p.2.1 = route

instance (regs : List Registration) (route : String) :
    Decidable (routeRegistered regs route) := by
  unfold routeRegistered
  infer_instance

/-- A (method, path) pair was registered in the sequence. -/
def pairRegistered (regs : List Registration) (method route : String) : Prop :=
  ∃ p ∈ regs, p.1 = method ∧ p.2.1 = route

instance (regs : List Registration) (method route : String) :
    Decidable (pairRegistered regs method route) := by
  unfold pairRegistered
  infer_instance

/-- The handler bound to a (method, path) pair by the registration sequence
(first match; successful sequences register each pair at most once). -/
def boundHandler : List Registration → String → String → Option Handler
  | [], _, _ => none
  | (method', route', h) :: rest, method, route =>
    if method' = method ∧ route' = route then some h
    else boundHandler rest method route

/- ### Invariants tying a built mux back to its registration sequence -/

theorem registerAll_mem_routes (regs : List Registration) :
    ∀ (m mux : Mux), m.registerAll regs = some mux →
      ∀ x, x ∈ mux.routes ↔ x ∈ m.routes ∨ routeRegistered regs x := by
  induction regs with
  | nil =>
    intro m mux hbuild x
    simp only [Mux.registerAll] at hbuild
    cases hbuild
    simp [routeRegistered]
  | cons reg rest ih =>
    intro m mux hbuild x
    obtain ⟨method, route, h⟩ := reg
    simp only [Mux.registerAll] at hbuild
    cases hreg : m.registerRoute method route h with
    | none => rw [hreg] at hbuild; cases hbuild
    | some m' =>
      rw [hreg] at hbuild
      unfold Mux.registerRoute at hreg
      by_cases hr : route = ""
      · simp [hr] at hreg
      · by_cases hdup : (m.handlers.lookup (method, route)).isSome
        · simp [hr, hdup] at hreg
        · simp only [if_neg hr, if_neg hdup, Option.some.injEq] at hreg
          subst hreg
          rw [ih _ _ hbuild x]
          simp only [List.mem_cons, routeRegistered, List.mem_cons]
          constructor
          · rintro ((hx | hx) | ⟨p, hp, hpx⟩)
            · exact Or.inr ⟨(method, route, h), Or.inl rfl, hx.symm⟩
            · exact Or.inl hx
            · exact Or.inr ⟨p, Or.inr hp, hpx⟩
          · rintro (hx | ⟨p, (hp | hp), hpx⟩)
            · exact Or.inl (Or.inr hx)
            · subst hp
              exact Or.inl (Or.inl hpx.symm)
            · exact Or.inr ⟨p, hp, hpx⟩

theorem registerAll_mem_meth2Routes (regs : List Registration) :
    ∀ (m mux : Mux), m.registerAll regs = some mux →
      ∀ method route, (method, route) ∈ mux.meth2Routes ↔
        (method, route) ∈ m.meth2Routes ∨ pairRegistered regs method route := by
  induction regs with
  | nil =>
    intro m mux hbuild method route
    simp only [Mux.registerAll] at hbuild
    cases hbuild
    simp [pairRegistered]
  | cons reg rest ih =>
    intro m mux hbuild method route
    obtain ⟨method', route', h⟩ := reg
    simp only [Mux.registerAll] at hbuild
    cases hreg : m.registerRoute method' route' h with
    | none => rw [hreg] at hbuild; cases hbuild
    | some m' =>
      rw [hreg] at hbuild
      unfold Mux.registerRoute at hreg
      by_cases hr : route' = ""
      · simp [hr] at hreg
      · by_cases hdup : (m.handlers.lookup (method', route')).isSome
        · simp [hr, hdup] at hreg
        · simp only [if_neg hr, if_neg hdup, Option.some.injEq] at hreg
          subst hreg
          rw [ih _ _ hbuild method route]
          simp only [List.mem_cons, pairRegistered, List.mem_cons, Prod.mk.injEq]
          constructor
          · rintro ((⟨hm, hx⟩ | hx) | ⟨p, hp, hpm, hpx⟩)
            · exact Or.inr ⟨(method', route', h), Or.inl rfl, hm.symm, hx.symm⟩
            · exact Or.inl hx
            · exact Or.inr ⟨p, Or.inr hp, hpm, hpx⟩
          · rintro (hx | ⟨p, (hp | hp), hpm, hpx⟩)
            · exact Or.inl (Or.inr hx)
            · subst hp
              exact Or.inl (Or.inl ⟨hpm.symm, hpx.symm⟩)
            · exact Or.inr ⟨p, hp, hpm, hpx⟩

theorem registerAll_lookup_persist (regs : List Registration) :
    ∀ (m mux : Mux), m.registerAll regs = some mux →
      ∀ k h, m.handlers.lookup k = some h → mux.handlers.lookup k = some h := by
  induction regs with
  | nil =>
    intro m mux hbuild k h hk
    simp only [Mux.registerAll] at hbuild
    cases hbuild
    exact hk
  | cons reg rest ih =>
    intro m mux hbuild k h hk
    obtain ⟨method, route, hh⟩ := reg
    simp only [Mux.registerAll] at hbuild
    cases hreg : m.registerRoute method route hh with
    | none => rw [hreg] at hbuild; cases hbuild
    | some m' =>
      rw [hreg] at hbuild
      unfold Mux.registerRoute at hreg
      by_cases hr : route = ""
      · simp [hr] at hreg
      · by_cases hdup : (m.handlers.lookup (method, route)).isSome
        · simp [hr, hdup] at hreg
        · simp only [if_neg hr, if_neg hdup, Option.some.injEq] at hreg
          subst hreg
          refine ih _ _ hbuild k h ?_
          have hkne : k ≠ (method, route) := by
            intro hkeq
            rw [← hkeq, hk] at hdup
            exact hdup rfl
          have hbeq : (k == (method, route)) = false := beq_eq_false_iff_ne.mpr hkne
          simp only [List.lookup, hbeq]
          exact hk

theorem registerAll_lookup_of_bound (regs : List Registration) :
    ∀ (m mux : Mux), m.registerAll regs = some mux →
      ∀ method route h, boundHandler regs method route = some h →
        m.handlers.lookup (method, route) = none →
        mux.handlers.lookup (method, route) = some h := by
  induction regs with
  | nil =>
    intro m mux _ method route h hbound _
    simp [boundHandler] at hbound
  | cons reg rest ih =>
    intro m mux hbuild method route h hbound hnone
    obtain ⟨method', route', hh⟩ := reg
    simp only [Mux.registerAll] at hbuild
    cases hreg : m.registerRoute method' route' hh with
    | none => rw [hreg] at hbuild; cases hbuild
    | some m' =>
      rw [hreg] at hbuild
      unfold Mux.registerRoute at hreg
      by_cases hr : route' = ""
      · simp [hr] at hreg
      · by_cases hdup : (m.handlers.lookup (method', route')).isSome
        · simp [hr, hdup] at hreg
        · simp only [if_neg hr, if_neg hdup, Option.some.injEq] at hreg
          subst hreg
          simp only [boundHandler] at hbound
          by_cases hmatch : method' = method ∧ route' = route
          · rw [if_pos hmatch] at hbound
            cases hbound
            obtain ⟨hm, hx⟩ := hmatch
            subst hm; subst hx
            refine registerAll_lookup_persist rest _ _ hbuild _ _ ?_
            simp [List.lookup]
          · rw [if_neg hmatch] at hbound
            refine ih _ _ hbuild method route h hbound ?_
            have hkne : (method, route) ≠ (method', route') := by
              intro hkeq
              exact hmatch ⟨(congrArg Prod.fst hkeq).symm, (congrArg Prod.snd hkeq).symm⟩
            have hbeq : ((method, route) == (method', route')) = false :=
              beq_eq_false_iff_ne.mpr hkne
            simp only [List.lookup, hbeq]
            exact hnone

/-- C2: dispatch behaviour of a mux built by any successful registration
sequence, with an empty request URL treated as `/`: an unregistered path
yields the single 404 "route not found" error; a path registered only under
other methods yields the single 405 "method not allowed" error; and a
registered (method, path) pair yields the bound handler's response
unchanged. -/
theorem mux_dispatch_spec (regs : List Registration) (mux : Mux)
    (hbuild : buildMux regs = some mux) (r : Request) :
    (¬ routeRegistered regs (if r.url = "" then "/" else r.url) →
      mux.handle r = { errors := [⟨404, "route not found"⟩] }) ∧
    (routeRegistered regs (if r.url = "" then "/" else r.url) →
      ¬ pairRegistered regs r.method (if r.url = "" then "/" else r.url) →
      mux.handle r = { errors := [⟨405, "method not allowed"⟩] }) ∧
    (∀ h, boundHandler regs r.method (if r.url = "" then "/" else r.url) = some h →
      mux.handle r = h r) := by
  have hroutes := registerAll_mem_routes regs NewMux mux hbuild
  have hpairs := registerAll_mem_meth2Routes regs NewMux mux hbuild
  refine ⟨?_, ?_, ?_⟩
  · intro hnr
    have : ¬ ((if r.url = "" then "/" else r.url) ∈ mux.routes) := by
      rw [hroutes]
      rintro (hmem | hreg)
      · simp [NewMux] at hmem
      · exact hnr hreg
    unfold Mux.handle
    rw [if_pos this]
  · intro hr hnp
    have hin : (if r.url = "" then "/" else r.url) ∈ mux.routes := by
      rw [hroutes]
      exact Or.inr hr
    have hnin : ¬ ((r.method, if r.url = "" then "/" else r.url) ∈ mux.meth2Routes) := by
      rw [hpairs]
      rintro (hmem | hpair)
      · simp [NewMux] at hmem
      · exact hnp hpair
    unfold Mux.handle
    rw [if_neg (by simpa using hin), if_pos hnin]
  · intro h hbound
    have hpair : pairRegistered regs r.method (if r.url = "" then "/" else r.url) := by
      clear hroutes hpairs hbuild
      induction regs with
      | nil => simp [boundHandler] at hbound
      | cons reg rest ih =>
        obtain ⟨method', route', hh⟩ := reg
        simp only [boundHandler] at hbound
        by_cases hmatch : method' = r.method ∧ route' = (if r.url = "" then "/" else r.url)
        · exact ⟨(method', route', hh), List.mem_cons_self _ _, hmatch⟩
        · rw [if_neg hmatch] at hbound
          obtain ⟨p, hp, hpp⟩ := ih hbound
          exact ⟨p, List.mem_cons_of_mem _ hp, hpp⟩
    have hin : (if r.url = "" then "/" else r.url) ∈ mux.routes := by
      rw [hroutes]
      obtain ⟨p, hp, h1, h2⟩ := hpair
      exact Or.inr ⟨p, hp, h2⟩
    have hinp : (r.method, if r.url = "" then "/" else r.url) ∈ mux.meth2Routes := by
      rw [hpairs]
      exact Or.inr hpair
    have hlook : mux.handlers.lookup (r.method, if r.url = "" then "/" else r.url) = some h :=
      registerAll_lookup_of_bound regs NewMux mux hbuild _ _ h hbound rfl
    unfold Mux.handle
    rw [if_neg (by simpa using hin), if_neg (by simpa using hinp), hlook]

/-- A concrete handler used by the C2 witness. -/
def witnessHandler : Handler := fun _ => { code := 201 }

/-- C2 (witness): registering `GET /x` then dispatching `GET /y` yields the
404 error, `DELETE /x` yields the 405 error, and `GET /x` yields the bound
handler's response. -/
theorem mux_dispatch_spec_witness :
    Mux.handle ⟨["/x"], [("GET", "/x")], [(("GET", "/x"), witnessHandler)]⟩
        { body := .stream [], url := "/y", method := "GET" } =
      { errors := [⟨404, "route not found"⟩] } ∧
    Mux.handle ⟨["/x"], [("GET", "/x")], [(("GET", "/x"), witnessHandler)]⟩
        { body := .stream [], url := "/x", method := "DELETE" } =
      { errors := [⟨405, "method not allowed"⟩] } ∧
    Mux.handle ⟨["/x"], [("GET", "/x")], [(("GET", "/x"), witnessHandler)]⟩
        { body := .stream [], url := "/x", method := "GET" } =
      witnessHandler { body := .stream [], url := "/x", method := "GET" } := by
  refine ⟨?_, ?_, ?_⟩
  · exact (mux_dispatch_spec [("GET", "/x", witnessHandler)] _ rfl
      { body := .stream [], url := "/y", method := "GET" }).1 (by decide)
  · exact (mux_dispatch_spec [("GET", "/x", witnessHandler)] _ rfl
      { body := .stream [], url := "/x", method := "DELETE" }).2.1 (by decide) (by decide)
  · exact (mux_dispatch_spec [("GET", "/x", witnessHandler)] _ rfl
      { body := .stream [], url := "/x", method := "GET" }).2.2 witnessHandler rfl

/-- `HandleFnOf` from `handler_fns.go`: decode the raw body into the target
type and hand the typed request to the inner function; on decode failure
answer a single 400 error.  The JSON decoding step
(`json.NewDecoder(r.Body).Decode`) lives in Go's standard library, so it is
abstracted into the `decode` parameter; everything else follows the source. -/
def HandleFnOf {T : Type} (decode : ReqBody → Except String T)
    (fn : RequestOf T → Response) : Request → Response :=
  fun r =>
    match decode r.body with
    | .error e => { errors := [⟨400, "failed to unmarshal payload: " ++ e⟩] }
    | .ok v =>
      fn { fnID := r.fnID, fnVersion := r.fnVersion, body := v, context := r.context,
           headers := r.headers, queries := r.queries, url := r.url, method := r.method,
           accessToken := r.accessToken, traceID := r.traceID }

/-- `HandlerFnOfOK` from `handler_fns.go`: decode as `HandleFnOf`, then run
the decoded value's `OK()` validation (the interface method is the `ok`
parameter); a non-empty error list short-circuits with `ErrResp`. -/
def HandlerFnOfOK {T : Type} (decode : ReqBody → Except String T)
    (ok : T → List APIError) (fn : RequestOf T → Response) : Request → Response :=
  HandleFnOf decode (fun r => if ok r.body ≠ [] then ErrResp (ok r.body) else fn r)

/-- C5: a typed-body adapter whose decode fails returns the single 400
"failed to unmarshal payload" error for every inner function (so the inner
function is never consulted); a validating adapter whose decoded value fails
validation returns `ErrResp` of exactly the validation errors — the `Errors`
list is that list, unmodified and in order — again for every inner
function. -/
theorem typed_adapters_short_circuit :
    (∀ (T : Type) (decode : ReqBody → Except String T) (fn : RequestOf T → Response)
        (r : Request) (e : String), decode r.body = .error e →
      HandleFnOf decode fn r = { errors := [⟨400, "failed to unmarshal payload: " ++ e⟩] }) ∧
    (∀ (T : Type) (decode : ReqBody → Except String T) (ok : T → List APIError)
        (fn : RequestOf T → Response) (r : Request) (v : T),
      decode r.body = .ok v → ok v ≠ [] →
      HandlerFnOfOK decode ok fn r = ErrResp (ok v) ∧
        (HandlerFnOfOK decode ok fn r).errors = ok v) := by
  constructor
  · intro T decode fn r e hdec
    unfold HandleFnOf
    rw [hdec]
  · intro T decode ok fn r v hdec hne
    have hrun : HandlerFnOfOK decode ok fn r = ErrResp (ok v) := by
      unfold HandlerFnOfOK HandleFnOf
      rw [hdec]
      simp only [hne, ne_eq, not_false_eq_true, if_true, if_pos]
    exact ⟨hrun, by rw [hrun]; rfl⟩

/-- C5 (witness): a decoder that always fails yields exactly the 400 error,
and a validator returning two fixed errors yields exactly those two errors. -/
theorem typed_adapters_short_circuit_witness :
    HandleFnOf (fun _ => (.error "boom" : Except String Nat)) (fun _ => { code := 201 })
        { body := .stream [] } =
      { errors := [⟨400, "failed to unmarshal payload: boom"⟩] } ∧
    HandlerFnOfOK (fun _ => (.ok 5 : Except String Nat))
        (fun _ => [⟨400, "first"⟩, ⟨500, "second"⟩]) (fun _ => { code := 201 })
        { body := .stream [] } =
      ErrResp [⟨400, "first"⟩, ⟨500, "second"⟩] ∧
    (HandlerFnOfOK (fun _ => (.ok 5 : Except String Nat))
        (fun _ => [⟨400, "first"⟩, ⟨500, "second"⟩]) (fun _ => { code := 201 })
        { body := .stream [] }).errors = [⟨400, "first"⟩, ⟨500, "second"⟩] := by
  refine ⟨?_, ?_⟩
  · exact typed_adapters_short_circuit.1 Nat _ _ { body := .stream [] } "boom" rfl
  · exact typed_adapters_short_circuit.2 Nat _ _ _ { body := .stream [] } 5 rfl (by decide)

/-- The outcome of running a handler whose body may panic: either a normal
response or an escaped panic. -/
inductive HandlerOutcome where
  | ok (resp : Response)
  | panicked
deriving DecidableEq, Repr

/-- `recoverer` from `sdk.go` (the logger argument only logs and is dropped):
run the wrapped handler; when it panics, `recover()` fires in the deferred
block and the named return value is replaced by
`ErrResp(APIError{Code: http.StatusServiceUnavailable, Message: "encountered
unexpected error"})`; otherwise the handler's response passes through. -/
def recoverer (h : Request → HandlerOutcome) : Request → HandlerOutcome :=
  fun r =>
    match h r with
    | .ok resp => .ok resp
    | .panicked => .ok (ErrResp [⟨503, "encountered unexpected error"⟩])

/-- C6: whenever the wrapped handler panics on a request, the
recovery-wrapped handler returns normally (never propagates the panic) with
a response whose `Errors` list is exactly the one internal-error entry
carrying the fixed message "encountered unexpected error" (the code the
source attaches to it is 503, `http.StatusServiceUnavailable`). -/
theorem recoverer_converts_panic (h : Request → HandlerOutcome) (r : Request)
    (hp : h r = .panicked) :
    recoverer h r = .ok (ErrResp [⟨503, "encountered unexpected error"⟩]) ∧
    (ErrResp [⟨503, "encountered unexpected error"⟩]).errors =
      [⟨503, "encountered unexpected error"⟩] := by
  constructor
  · unfold recoverer
    rw [hp]
  · rfl

/-- C6 (witness): an always-panicking handler is converted to the fixed
single-error response. -/
theorem recoverer_converts_panic_witness :
    recoverer (fun _ => .panicked) { body := .stream [] } =
      .ok (ErrResp [⟨503, "encountered unexpected error"⟩]) :=
  (recoverer_converts_panic (fun _ => .panicked) { body := .stream [] } rfl).1

/-- `ComplexPayload.Read` from `complex_payload.go`: always reports zero
bytes read and the fixed unsupported error, leaving the payload untouched
(the returned payload models the absence of any state mutation). -/
def ComplexPayload.read (c : ComplexPayload) (_buf : List Nat) :
    Nat × Option String × ComplexPayload :=
  (0, some "method Read() not supported - treat object as a standard struct", c)

/-- C10: for every `ComplexPayload` and every buffer, `Read` returns zero
bytes and a non-nil error and consumes nothing — the payload can never be
read as a byte stream and must be accessed through its `Body`/`Files`
fields. -/
theorem complexPayload_read_unsupported (c : ComplexPayload) (buf : List Nat) :
    (c.read buf).1 = 0 ∧ (c.read buf).2.1.isSome = true ∧ (c.read buf).2.2 = c :=
  ⟨rfl, rfl, rfl⟩

/-- A file's content stream (`io.ReadCloser`).  `CompressGzip` wraps the
stream in its streaming gzip adapter, modelled by the `gzipWrapped`
constructor. -/
inductive FileContents where
  | empty
  | bytes (bs : List Nat)
  | gzipWrapped (inner : FileContents)
deriving DecidableEq, Repr

/-- `File` from `file.go`: content type, content-encoding token string,
destination filename and the content stream. -/
structure File where
  contentType : String := ""
  encoding : String := ""
  filename : String := ""
  contents : FileContents := .empty
deriving DecidableEq, Repr

/-- Go's `strings.Contains`: substring containment, modelled on the
character lists. -/
def goContains (s sub : String) : Bool :=
  decide (sub.toList <:+: s.toList)

/-- `CompressGzip` from `file.go`: set the encoding to `gzip` when empty,
append `", gzip"` when the existing encoding does not already contain the
`gzip` token, and wrap the contents in the streaming gzip compressor. -/
def CompressGzip (file : File) : File :=
  let file :=
    if file.encoding = "" then { file with encoding := "gzip" }
    else if file.encoding ≠ "" ∧ ¬ goContains file.encoding "gzip" then
      { file with encoding := file.encoding ++ ", gzip" }
    else file
  { file with contents := .gzipWrapped file.contents }

theorem goContains_append_gzip (e : String) : goContains (e ++ ", gzip") "gzip" = true := by
  unfold goContains
  rw [decide_eq_true_iff]
  refine ⟨e.toList ++ [',', ' '], [], ?_⟩
  have : (e ++ ", gzip").toList = e.toList ++ (", gzip").toList := by
    simp [String.toList, String.data_append]
  rw [this]
  simp

/-- C7: the `Encoding` field after `CompressGzip` — `"gzip"` when the input
encoding is empty; unchanged when it already contains the `gzip` token;
otherwise the input encoding with `", gzip"` appended (so `"deflate"`
becomes `"deflate, gzip"`); and applying `CompressGzip` twice leaves
`Encoding` exactly as one application does. -/
theorem compressGzip_encoding (f : File) :
    (f.encoding = "" → (CompressGzip f).encoding = "gzip") ∧
    (goContains f.encoding "gzip" = true → (CompressGzip f).encoding = f.encoding) ∧
    (f.encoding ≠ "" → goContains f.encoding "gzip" = false →
      (CompressGzip f).encoding = f.encoding ++ ", gzip") ∧
    (CompressGzip (CompressGzip f)).encoding = (CompressGzip f).encoding := by
  have hgz : goContains "gzip" "gzip" = true := by decide
  have hne : ("gzip" : String) ≠ "" := by decide
  refine ⟨?_, ?_, ?_, ?_⟩
  · intro h
    simp [CompressGzip, h]
  · intro h
    by_cases he : f.encoding = ""
    · rw [he] at h
      exact absurd h (by decide)
    · simp [CompressGzip, he, h]
  · intro he hnc
    simp [CompressGzip, he, hnc]
  · by_cases he : f.encoding = ""
    · simp [CompressGzip, he, hgz, hne]
    · by_cases hc : goContains f.encoding "gzip"
      · simp [CompressGzip, he, hc]
      · have happ := goContains_append_gzip f.encoding
        have happne : f.encoding ++ ", gzip" ≠ "" := by
          intro habs
          have : (f.encoding ++ ", gzip").toList = "".toList := by rw [habs]
          rw [show (f.encoding ++ ", gzip").toList = f.encoding.toList ++ (", gzip").toList by
            simp [String.toList, String.data_append]] at this
          simp at this
        simp [CompressGzip, he, hc, happ, happne]

/-- C7 (witness): the three encoding cases at concrete files — empty
encoding becomes `gzip`, an existing `gzip` stays put, `deflate` becomes
`deflate, gzip` — and double compression of the `deflate` file changes the
encoding only once. -/
theorem compressGzip_encoding_witness :
    (CompressGzip { encoding := "" }).encoding = "gzip" ∧
    (CompressGzip { encoding := "gzip" }).encoding = "gzip" ∧
    (CompressGzip { encoding := "deflate" }).encoding = "deflate, gzip" ∧
    (CompressGzip (CompressGzip { encoding := "deflate" })).encoding =
      (CompressGzip { encoding := "deflate" }).encoding := by
  refine ⟨?_, ?_, ?_, ?_⟩
  · exact (compressGzip_encoding { encoding := "" }).1 rfl
  · exact (compressGzip_encoding { encoding := "gzip" }).2.1 (by decide)
  · exact (compressGzip_encoding { encoding := "deflate" }).2.2.1 (by decide) (by decide)
  · exact (compressGzip_encoding { encoding := "deflate" }).2.2.2

/-- The standard base64 alphabet used by Go's `base64.StdEncoding`. -/
def base64Alphabet : List Char :=
  "ABCDEFGHIJKLMNOPQRSTUVWXYZabcdefghijklmnopqrstuvwxyz0123456789+/".toList

/-- The base64 digit for a 6-bit value. -/
def base64Char (n : Nat) : Char :=
  base64Alphabet.getD n 'A'

/-- Encode a byte list in 3-byte groups, padding the final group with `=`
as `base64.StdEncoding` does. -/
def base64EncodeChunks : List Nat → List Char
  | b0 :: b1 :: b2 :: rest =>
    let n := b0 % 256 * 65536 + b1 % 256 * 256 + b2 % 256
    base64Char (n / 262144) :: base64Char (n / 4096 % 64) ::
      base64Char (n / 64 % 64) :: base64Char (n % 64) :: base64EncodeChunks rest
  | [b0, b1] =>
    let n := b0 % 256 * 65536 + b1 % 256 * 256
    [base64Char (n / 262144), base64Char (n / 4096 % 64), base64Char (n / 64 % 64), '=']
  | [b0] =>
    let n := b0 % 256 * 65536
    [base64Char (n / 262144), base64Char (n / 4096 % 64), '=', '=']
  | [] => []

/-- Go's `base64.StdEncoding.EncodeToString` over a byte list. -/
def base64StdEncode (bs : List Nat) : String :=
  String.mk (base64EncodeChunks bs)

/-- The environment a `writeFile` call runs in: whether opening the
destination fails, the chunks the input stream delivers, and which of the
copy and the two closes fail.  This makes every `io` failure path of the Go
function an explicit, decidable case. -/
structure WriteEnv where
  openFails : Bool := false
  chunks : List (List Nat) := []
  copyFails : Bool := false
  srcCloseFails : Bool := false
  dstCloseFails : Bool := false
deriving DecidableEq, Repr

/-- What a `writeFile` call did: the returned value (digest and size on
success), the bytes written to the destination, and whether the destination
file and the input stream had `Close` invoked on them by the time the call
returned. -/
structure WriteOutcome where
  result : Except String (String × Nat)
  written : List Nat
  dstClosed : Bool
  srcClosed : Bool
deriving Repr

/-- `writeFile` from the HTTP runner: open the destination (failure returns
before the deferred closes are installed, so neither stream is closed);
stream the input through an `io.MultiWriter` of the size recorder and the
SHA-256 hasher (the hasher — Go's `crypto/sha256` — is abstracted into the
`sha256fn` parameter; per `hash.Hash`'s contract its `Sum` digests exactly
the bytes written to it); a copy failure returns an error with both closes
run by the `defer`; a failing input-stream close is logged and swallowed; a
failing destination close is a hard error; on success the digest is the
standard-base64 encoding of the hash of the copied bytes and the size is
their count. -/
def writeFile (sha256fn : List Nat → List Nat) (env : WriteEnv) : WriteOutcome :=
  if env.openFails then
    { result := .error "failed to open file", written := [],
      dstClosed := false, srcClosed := false }
  else
    let bytes := env.chunks.flatten
    if env.copyFails then
      { result := .error "failed to write contents to file", written := bytes,
        dstClosed := true, srcClosed := true }
    else if env.dstCloseFails then
      { result := .error "failed to close file", written := bytes,
        dstClosed := true, srcClosed := true }
    else
      { result := .ok (base64StdEncode (sha256fn bytes), bytes.length), written := bytes,
        dstClosed := true, srcClosed := true }

/-- C3: when the destination opens, the copy completes and the destination
closes (the input-stream close may still fail), `writeFile` writes exactly
the stream's bytes, and returns the standard-base64 encoding of the SHA-256
hash of exactly those bytes together with their count. -/
theorem writeFile_success (sha256fn : List Nat → List Nat) (env : WriteEnv)
    (h1 : env.openFails = false) (h2 : env.copyFails = false)
    (h3 : env.dstCloseFails = false) :
    (writeFile sha256fn env).result =
      .ok (base64StdEncode (sha256fn env.chunks.flatten), env.chunks.flatten.length) ∧
    (writeFile sha256fn env).written = env.chunks.flatten := by
  unfold writeFile
  rw [h1, h2, h3]
  exact ⟨rfl, rfl⟩

/-- C3 (witness): writing the two chunks `[1, 2]` and `[3]` through the
identity hash yields the base64 digest of `[1, 2, 3]` — the string `AQID` —
and size 3, regardless of the input-stream close failing. -/
theorem writeFile_success_witness :
    (writeFile (fun bs => bs) { chunks := [[1, 2], [3]], srcCloseFails := true }).result =
      .ok ("AQID", 3) ∧
    (writeFile (fun bs => bs) { chunks := [[1, 2], [3]], srcCloseFails := true }).written =
      [1, 2, 3] := by
  have h := writeFile_success (fun bs => bs) { chunks := [[1, 2], [3]], srcCloseFails := true }
    rfl rfl rfl
  refine ⟨?_, ?_⟩
  · rw [h.1]
    rfl
  · rw [h.2]
    rfl

/-- C9 (counterexample): the claim says `writeFile` closes the input stream
on every exit path, but when opening the destination fails the function
returns before its deferred closes are installed, leaving the input stream
unclosed. -/
theorem writeFile_open_failure_leaves_source_open :
    (writeFile (fun bs => bs) { openFails := true }).srcClosed = false ∧
    (writeFile (fun bs => bs) { openFails := true }).dstClosed = false := by
  decide

/-- C9 (amended): on every exit path on which the destination was opened,
both the destination file and the input stream are closed (when the open
itself fails, `writeFile` returns a hard error without closing the input
stream); a failing input-stream close after a successful copy does not make
`writeFile` fail; and `writeFile` returns a hard error exactly when the
destination cannot be opened, the copy fails, or the destination close
fails. -/
theorem writeFile_close_discipline (sha256fn : List Nat → List Nat) (env : WriteEnv) :
    (env.openFails = false →
      (writeFile sha256fn env).dstClosed = true ∧ (writeFile sha256fn env).srcClosed = true) ∧
    (env.openFails = true →
      (∃ e, (writeFile sha256fn env).result = .error e) ∧
      (writeFile sha256fn env).srcClosed = false) ∧
    (env.openFails = false → env.copyFails = false → env.dstCloseFails = false →
      ∃ v, (writeFile sha256fn env).result = .ok v) ∧
    ((∃ v, (writeFile sha256fn env).result = .ok v) ↔
      env.openFails = false ∧ env.copyFails = false ∧ env.dstCloseFails = false) := by
  refine ⟨?_, ?_, ?_, ?_⟩
  · intro h1
    unfold writeFile
    rw [h1]
    by_cases h2 : env.copyFails
    all_goals by_cases h3 : env.dstCloseFails
    all_goals simp [h2, h3]
  · intro h1
    unfold writeFile
    rw [h1]
    exact ⟨⟨"failed to open file", rfl⟩, rfl⟩
  · intro h1 h2 h3
    unfold writeFile
    rw [h1, h2, h3]
    exact ⟨_, rfl⟩
  · constructor
    · rintro ⟨v, hv⟩
      unfold writeFile at hv
      by_cases h1 : env.openFails
      · rw [if_pos h1] at hv
        cases hv
      · rw [if_neg h1] at hv
        by_cases h2 : env.copyFails
        · simp [h2] at hv
        · by_cases h3 : env.dstCloseFails
          · simp [h2, h3] at hv
          · exact ⟨Bool.eq_false_iff.mpr h1, Bool.eq_false_iff.mpr h2, Bool.eq_false_iff.mpr h3⟩
    · rintro ⟨h1, h2, h3⟩
      unfold writeFile
      rw [h1, h2, h3]
      exact ⟨_, rfl⟩

/-- C9 (witness): the amended close discipline at concrete environments —
with a failing input-stream close the write still succeeds and both closes
ran; with a failing open the result is an error and the source is left
unclosed. -/
theorem writeFile_close_discipline_witness :
    (writeFile (fun bs => bs) { chunks := [[7]], srcCloseFails := true }).dstClosed = true ∧
    (writeFile (fun bs => bs) { chunks := [[7]], srcCloseFails := true }).srcClosed = true ∧
    (∃ v, (writeFile (fun bs => bs)
      { chunks := [[7]], srcCloseFails := true }).result = .ok v) ∧
    (∃ e, (writeFile (fun bs => bs) { openFails := true }).result = .error e) := by
  have hA := writeFile_close_discipline (fun bs => bs) { chunks := [[7]], srcCloseFails := true }
  have hB := writeFile_close_discipline (fun bs => bs) { openFails := true }
  exact ⟨(hA.1 rfl).1, (hA.1 rfl).2, hA.2.2.1 rfl rfl rfl, (hB.2.1 rfl).1⟩

/-- A byte string (the contents of a file part or of a form value). -/
abbrev ByteStr := List Nat

/-- Go's `*multipart.Form` as consumed by the decoder: the file parts
(`m.File`, keyed by part name — the model uses the same key for
`header.Filename`) and the value parts (`m.Value`, a key mapped to its list
of submitted values). -/
structure GoMultipartForm where
  files : List (String × ByteStr) := []
  values : List (String × List ByteStr) := []
deriving DecidableEq, Repr

/-- `isComplexMultipartReq` from the HTTP runner: multiple files, or at
least one file and a value other than "meta" (i.e. more than one value,
"meta" being always present). -/
def isComplexMultipartReq (m : GoMultipartForm) : Bool :=
  decide (1 < m.files.length) ||
    (decide (1 ≤ m.files.length) && decide (1 < m.values.length))

/-- Go's `req.FormValue(key)` on a parsed multipart form: the first value
under the key, or the empty string. -/
def goFormValue (m : GoMultipartForm) (key : String) : ByteStr :=
  match m.values.lookup key with
  | some (v :: _) => v
  | _ => []

/-- `fromComplexMultipartReq` from the HTTP runner, without its file-open
failure path: the "body" value (first entry, when present and non-empty)
becomes the payload's `Body`, and every file part is opened into `Files`. -/
def fromComplexMultipartReq (m : GoMultipartForm) : ComplexPayload :=
  { body :=
      match m.values.lookup "body" with
      | some (b :: _) => some b
      | _ => none
    files := m.files }

/-- `fromMultipartReq` from the HTTP runner (the `meta` JSON unmarshalling,
which only fills request metadata, is elided): require a non-empty `meta`
value, build a `ComplexPayload` when `isComplexMultipartReq` holds, and
otherwise take the single `body` file part as the plain stream body. -/
def fromMultipartReq (m : GoMultipartForm) : Except String (ByteStr ⊕ ComplexPayload) :=
  if goFormValue m "meta" = [] then
    .error "no meta field provided in multipart form submission"
  else if isComplexMultipartReq m then
    .ok (.inr (fromComplexMultipartReq m))
  else
    match m.files.lookup "body" with
    | some content => .ok (.inl content)
    | none => .error "failed to read multipart body form file"

/-- Whether the decoder constructed a `ComplexPayload` for the submission. -/
def constructsComplexPayload : Except String (ByteStr ⊕ ComplexPayload) → Bool
  | .ok (.inr _) => true
  | _ => false

/-- The claim's construction condition, stated from its words: more than one
file part, or at least one file part together with a named value other than
the primary body.  The required `meta` envelope value is not counted as one
of the submission's named values (the claim itself calls a one-file
submission whose only value is `meta` a submission with "no other values"),
so a qualifying value is one keyed neither `meta` nor `body`. -/
def claimComplexCondition (m : GoMultipartForm) : Prop :=
  1 < m.files.length ∨
    (1 ≤ m.files.length ∧ ∃ k ∈ m.values.map Prod.fst, k ≠ "meta" ∧ k ≠ "body")

instance (m : GoMultipartForm) : Decidable (claimComplexCondition m) := by
  unfold claimComplexCondition
  infer_instance

/- ### List helper lemmas for the multipart condition -/

theorem mem_keys_of_lookup {α : Type} (l : List (String × α)) (k : String) (v : α)
    (h : l.lookup k = some v) : k ∈ l.map Prod.fst := by
  induction l with
  | nil => cases h
  | cons p rest ih =>
    by_cases hk : k = p.1
    · simp [hk]
    · have hbeq : (k == p.1) = false := beq_eq_false_iff_ne.mpr hk
      have htail : rest.lookup k = some v := by
        cases p with
        | mk a b => simpa [List.lookup, hbeq] using h
      exact List.mem_cons_of_mem _ (ih htail)

theorem one_lt_length_of_two_mem {α : Type} (l : List α) (a b : α)
    (ha : a ∈ l) (hb : b ∈ l) (hne : a ≠ b) : 1 < l.length := by
  cases l with
  | nil => cases ha
  | cons x rest =>
    cases rest with
    | nil =>
      rw [List.mem_singleton] at ha hb
      exact absurd (ha.trans hb.symm) hne
    | cons y rest' => simp [List.length_cons]

theorem exists_ne_of_one_lt_length {α : Type} (l : List α) (hnd : l.Nodup) (a : α)
    (ha : a ∈ l) (hl : 1 < l.length) : ∃ b ∈ l, b ≠ a := by
  cases l with
  | nil => cases ha
  | cons x rest =>
    cases rest with
    | nil => simp at hl
    | cons y rest' =>
      rcases List.mem_cons.mp ha with hax | har
      · refine ⟨y, by simp, ?_⟩
        intro hya
        rw [hya, ← hax] at hnd
        exact (List.nodup_cons.mp hnd).1 (List.mem_cons_self _ _)
      · exact ⟨x, List.mem_cons_self _ _, fun hxa => (List.nodup_cons.mp hnd).1 (hxa ▸ har)⟩

/-- C4 (counterexample): a submission with a single file part plus a `body`
value (alongside the required `meta`) has no named value other than the
primary body, so the claim says it stays a plain single-stream body — yet
the decoder builds a `ComplexPayload` for it (its condition counts every
non-`meta` value, `body` included). -/
theorem complex_payload_claim_counterexample :
    constructsComplexPayload (fromMultipartReq
      { files := [("upload", [1])], values := [("meta", [[2]]), ("body", [[3]])] }) = true ∧
    ¬ claimComplexCondition
      { files := [("upload", [1])], values := [("meta", [[2]]), ("body", [[3]])] } := by
  constructor
  · rfl
  · decide

/-- C4 (amended): with the required `meta` value present and value keys
unique, the decoder constructs a `ComplexPayload` exactly when the
submission has more than one file part, or at least one file part together
with a named value other than the `meta` envelope (a `body` value counts);
and a submission with exactly one file part — the `body` part — and no
value besides `meta` yields that part as the plain single-stream body. -/
theorem complex_payload_construction (m : GoMultipartForm)
    (hmeta : goFormValue m "meta" ≠ []) (hnodup : (m.values.map Prod.fst).Nodup) :
    (constructsComplexPayload (fromMultipartReq m) = true ↔
      1 < m.files.length ∨
        (1 ≤ m.files.length ∧ ∃ k ∈ m.values.map Prod.fst, k ≠ "meta")) ∧
    (m.files.length = 1 → (∀ k ∈ m.values.map Prod.fst, k = "meta") →
      ∀ content, m.files.lookup "body" = some content →
        fromMultipartReq m = .ok (.inl content)) := by
  have hmetakey : "meta" ∈ m.values.map Prod.fst := by
    unfold goFormValue at hmeta
    cases hlk : m.values.lookup "meta" with
    | none => rw [hlk] at hmeta; exact absurd rfl hmeta
    | some vs =>
      cases vs with
      | nil => rw [hlk] at hmeta; exact absurd rfl hmeta
      | cons v rest => exact mem_keys_of_lookup m.values "meta" (v :: rest) hlk
  have hkeys : (m.values.map Prod.fst).length = m.values.length := List.length_map _ _
  constructor
  · constructor
    · intro hcon
      unfold fromMultipartReq at hcon
      rw [if_neg hmeta] at hcon
      by_cases hcplx : isComplexMultipartReq m
      · unfold isComplexMultipartReq at hcplx
        simp only [Bool.or_eq_true, Bool.and_eq_true, decide_eq_true_eq] at hcplx
        rcases hcplx with hf | ⟨hf, hv⟩
        · exact Or.inl hf
        · refine Or.inr ⟨hf, ?_⟩
          have := exists_ne_of_one_lt_length (m.values.map Prod.fst) hnodup "meta" hmetakey
            (by rw [hkeys]; exact hv)
          obtain ⟨k, hk, hkne⟩ := this
          exact ⟨k, hk, hkne⟩
      · rw [if_neg hcplx] at hcon
        cases hlk : m.files.lookup "body" with
        | none => rw [hlk] at hcon; cases hcon
        | some content => rw [hlk] at hcon; cases hcon
    · intro hcond
      have hcplx : isComplexMultipartReq m = true := by
        unfold isComplexMultipartReq
        simp only [Bool.or_eq_true, Bool.and_eq_true, decide_eq_true_eq]
        rcases hcond with hf | ⟨hf, k, hk, hkne⟩
        · exact Or.inl hf
        · refine Or.inr ⟨hf, ?_⟩
          rw [← hkeys]
          exact one_lt_length_of_two_mem _ k "meta" hk hmetakey hkne
      unfold fromMultipartReq
      rw [if_neg hmeta, if_pos hcplx]
      rfl
  · intro hone hall content hlk
    have hvlen : ¬ (1 < m.values.length) := by
      intro hv
      obtain ⟨k, hk, hkne⟩ := exists_ne_of_one_lt_length (m.values.map Prod.fst) hnodup
        "meta" hmetakey (by rw [hkeys]; exact hv)
      exact hkne (hall k hk)
    have hcplx : isComplexMultipartReq m = false := by
      unfold isComplexMultipartReq
      simp only [Bool.or_eq_false_iff, Bool.and_eq_false_iff, decide_eq_false_iff_not]
      refine ⟨by omega, Or.inr hvlen⟩
    unfold fromMultipartReq
    rw [if_neg hmeta, hcplx, if_neg (by simp), hlk]

/-- C4 (witness): the amended condition at concrete submissions — two file
parts yield a `ComplexPayload`; one file part plus an extra named value
yields a `ComplexPayload`; one `body` file part with only `meta` yields the
plain stream. -/
theorem complex_payload_construction_witness :
    constructsComplexPayload (fromMultipartReq
      { files := [("a", [1]), ("b", [2])], values := [("meta", [[9]])] }) = true ∧
    constructsComplexPayload (fromMultipartReq
      { files := [("a", [1])], values := [("meta", [[9]]), ("extra", [[4]])] }) = true ∧
    fromMultipartReq { files := [("body", [5])], values := [("meta", [[9]])] } =
      .ok (.inl [5]) := by
  refine ⟨?_, ?_, ?_⟩
  · exact (complex_payload_construction
      { files := [("a", [1]), ("b", [2])], values := [("meta", [[9]])] }
      (by decide) (by decide)).1.mpr (Or.inl (by decide))
  · exact (complex_payload_construction
      { files := [("a", [1])], values := [("meta", [[9]]), ("extra", [[4]])] }
      (by decide) (by decide)).1.mpr
      (Or.inr ⟨by decide, "extra", by decide, by decide⟩)
  · exact (complex_payload_construction
      { files := [("body", [5])], values := [("meta", [[9]])] }
      (by decide) (by decide)).2 rfl (by decide) [5] rfl

/-- A wall-clock instant as Go's `time.Time` presents it to RFC3339
formatting: calendar fields plus a zone offset in minutes.  The injectable
clock `nowFn` of `file.go` is modelled by passing such an instant in. -/
structure GoTime where
  year : Nat := 1
  month : Nat := 1
  day : Nat := 1
  hour : Nat := 0
  minute : Nat := 0
  second : Nat := 0
  tzOffsetMinutes : Int := 0
deriving DecidableEq, Repr

/-- Zero-pad a number to two digits, as Go's `01`/`04` format verbs do. -/
def pad2 (n : Nat) : String :=
  if n < 10 then "0" ++ toString n else toString n

/-- Zero-pad a year to four digits, as Go's `2006` format verb does. -/
def pad4 (n : Nat) : String :=
  if n < 10 then "000" ++ toString n
  else if n < 100 then "00" ++ toString n
  else if n < 1000 then "0" ++ toString n
  else toString n

/-- Go's `time.Time.Format(time.RFC3339)`:
`yyyy-mm-ddThh:mm:ss` followed by `Z` for UTC or a signed `hh:mm` offset. -/
def formatRFC3339 (t : GoTime) : String :=
  let tz :=
    if t.tzOffsetMinutes = 0 then "Z"
    else
      let sign := if t.tzOffsetMinutes < 0 then "-" else "+"
      let mins := t.tzOffsetMinutes.natAbs
      sign ++ pad2 (mins / 60) ++ ":" ++ pad2 (mins % 60)
  pad4 t.year ++ "-" ++ pad2 t.month ++ "-" ++ pad2 t.day ++ "T" ++
    pad2 t.hour ++ ":" ++ pad2 t.minute ++ ":" ++ pad2 t.second ++ tz

/- ### Kernel-computable models of the Go `strings` helpers.
Every separator the source passes to `strings.Split`/`SplitN`/`Join`/
`ReplaceAll` is a single character, so the models work on one separator
character over the string's character list. -/

/-- Go's `strings.Split(s, sep)` for a one-character separator. -/
def splitChar (c : Char) : List Char → List (List Char)
  | [] => [[]]
  | x :: rest =>
    let r := splitChar c rest
    if x = c then [] :: r
    else
      match r with
      | [] => [[x]]
      | g :: gs => (x :: g) :: gs

/-- Rejoin split groups with the separator (used to model `SplitN`'s final
unsplit remainder). -/
def intercalateChar (c : Char) : List (List Char) → List Char
  | [] => []
  | [g] => g
  | g :: gs => g ++ c :: intercalateChar c gs

/-- Go's `strings.SplitN(s, sep, 2)` for a one-character separator. -/
def splitN2Char (c : Char) (cs : List Char) : List (List Char) :=
  match splitChar c cs with
  | [] => []
  | x :: rest => if rest.isEmpty then [x] else [x, intercalateChar c rest]

/-- Go's `strings.Join`. -/
def goJoin (sep : String) : List String → String
  | [] => ""
  | [x] => x
  | x :: xs => x ++ sep ++ goJoin sep xs

/-- Go's `strings.ReplaceAll(s, " ", "")`: drop every space. -/
def removeSpaces (s : String) : String :=
  String.mk (s.toList.filter (fun ch => ch ≠ ' '))

/-- Go's `filepath.Base`: `"."` for the empty path, trailing slashes
stripped, then everything after the last slash (`"/"` when nothing is
left). -/
def goFilepathBase (path : String) : String :=
  if path = "" then "."
  else
    let stripped := (path.toList.reverse.dropWhile (fun ch => ch = '/')).reverse
    if stripped.isEmpty then "/"
    else String.mk ((stripped.reverse.takeWhile (fun ch => ch ≠ '/')).reverse)

/-- `contentTypeOctetStream` from `file.go`. -/
def contentTypeOctetStream : String := "application/octet-stream"

/-- Go's `mime.TypeByExtension` table as this program sees it after
`initMime` runs: the Go standard library's builtin extension table (the
`text/*` entries carrying their `charset=utf-8` parameter), with the
`.xml` entry overridden and the `.jsonld`/`.jsonnet`/`.yaml`/`.yml`
entries added by the `mime.AddExtensionType` calls in `file.go` (Go adds
`charset=utf-8` to added `text/*` types).  System mime tables, which Go
may merge in, are environment noise the repository's own tests also
ignore, so they are not modelled.  Lookups here are for the lower-case
extensions the source produces. -/
def mimeTable : List (String × String) := [
  (".avif", "image/avif"), (".css", "text/css; charset=utf-8"),
  (".gif", "image/gif"), (".htm", "text/html; charset=utf-8"),
  (".html", "text/html; charset=utf-8"), (".jpeg", "image/jpeg"),
  (".jpg", "image/jpeg"), (".js", "text/javascript; charset=utf-8"),
  (".json", "application/json"), (".mjs", "text/javascript; charset=utf-8"),
  (".pdf", "application/pdf"), (".png", "image/png"),
  (".svg", "image/svg+xml"), (".wasm", "application/wasm"),
  (".webp", "image/webp"), (".xml", "application/xml"),
  (".jsonld", "application/ld+json"), (".jsonnet", "application/jsonnet"),
  (".yaml", "text/yaml; charset=utf-8"), (".yml", "text/yaml; charset=utf-8")]

/-- `mime.TypeByExtension`: empty string when the extension is unknown. -/
def typeByExtension (ext : String) : String :=
  (mimeTable.lookup ext).getD ""

/-- The media type with parameters stripped, as `mime.ParseMediaType`
produces it for `ExtensionsByType` (everything before `;`, trimmed and
lower-cased). -/
def mediaJustType (s : String) : String :=
  let head := (splitChar ';' s.toList).headD []
  let trimmed := ((head.dropWhile (fun ch => ch = ' ')).reverse.dropWhile
    (fun ch => ch = ' ')).reverse
  String.mk (trimmed.map Char.toLower)

/-- Go's `mime.ExtensionsByType` reverse table for `mimeTable`: each media
type (parameters stripped) mapped to its extensions in the sorted order
`ExtensionsByType` returns. -/
def extensionsTable : List (String × List String) := [
  ("application/json", [".json"]),
  ("application/ld+json", [".jsonld"]),
  ("application/jsonnet", [".jsonnet"]),
  ("application/pdf", [".pdf"]),
  ("application/wasm", [".wasm"]),
  ("application/xml", [".xml"]),
  ("image/avif", [".avif"]),
  ("image/gif", [".gif"]),
  ("image/jpeg", [".jpeg", ".jpg"]),
  ("image/png", [".png"]),
  ("image/svg+xml", [".svg"]),
  ("image/webp", [".webp"]),
  ("text/css", [".css"]),
  ("text/html", [".htm", ".html"]),
  ("text/javascript", [".js", ".mjs"]),
  ("text/xml", [".xml"]),
  ("text/yaml", [".yaml", ".yml"])]

/-- `mime.ExtensionsByType`: the sorted extensions for a media type, empty
when unknown. -/
def extensionsByType (typ : String) : List String :=
  (extensionsTable.lookup (mediaJustType typ)).getD []

/-- The first branch of `normalizeContentType`'s extension loop: the first
extension part with a known mime type wins, else octet-stream. -/
def firstExtMimeType : List String → String
  | [] => contentTypeOctetStream
  | ext :: rest =>
    let ct := typeByExtension ("." ++ ext)
    if ct ≠ "" then ct else firstExtMimeType rest

/-- `normalizeContentType` from `file.go`: split the base filename on dots;
fewer than two parts means octet-stream, otherwise the first extension part
with a known mime type decides. -/
def normalizeContentType (filename : String) : String :=
  let parts := splitChar '.' (goFilepathBase filename).toList
  if parts.length < 2 then contentTypeOctetStream
  else firstExtMimeType (parts.tail.map String.mk)

/-- The `mapping` table inside `normalizeEncoding`. -/
def encodingByExt : List (String × String) :=
  [("br", "brotli"), ("gz", "gzip"), ("zst", "zstd")]

/-- `normalizeEncoding` from `file.go`: split the base filename once on the
first dot; every recognized compression suffix in the remainder contributes
its encoding token, joined with `", "`. -/
def normalizeEncoding (filename : String) : String :=
  let parts := splitN2Char '.' (goFilepathBase filename).toList
  if parts.length = 1 then ""
  else
    let out := (splitChar '.' (parts.getD 1 [])).filterMap
      (fun part => encodingByExt.lookup (String.mk part))
    goJoin ", " out

/-- `compressionToExt` from `file.go`. -/
def compressionToExt : List (String × String) :=
  [("brotli", "br"), ("gzip", "gz"), ("zstd", "zst")]

/-- The loop body of `normalizeFilename`'s encoding conversion: a token's
extension when `compressionToExt` knows it, nothing otherwise. -/
def encExtStep (enc : List Char) : Option String :=
  let ext := (compressionToExt.lookup (String.mk enc)).getD ""
  if ext ≠ "" then some ext else none

/-- `normalizeFilename` from `file.go`: `upload_<RFC3339 now>`, then an
extension derived from the content type (first entry of
`ExtensionsByType`, skipped for octet-stream), then one extension per
recognized encoding token (kept in encoding order; with no recognized
token the raw encoding string is appended unchanged, as in the source). -/
def normalizeFilename (contentType encoding : String) (now : GoTime) : String :=
  let filename := "upload_" ++ formatRFC3339 now
  let encoding :=
    if encoding ≠ "" then
      let converted := (splitChar ',' (removeSpaces encoding).toList).filterMap encExtStep
      if converted.length > 0 then "." ++ goJoin "." converted else encoding
    else encoding
  let ctExt :=
    if contentType ≠ contentTypeOctetStream then
      match extensionsByType contentType with
      | [] => ""
      | e :: _ => e
    else ""
  filename ++ ctExt ++ encoding

/-- `NormalizeFile` from `file.go`: fill the content type from the
filename, then the encoding from the filename, then synthesize a filename,
each only when the field is empty; `now` is the injected clock value
(`nowFn()`). -/
def NormalizeFile (now : GoTime) (f : File) : File :=
  let f := if f.contentType = "" then
    { f with contentType := normalizeContentType f.filename } else f
  let f := if f.encoding = "" then
    { f with encoding := normalizeEncoding f.filename } else f
  let f := if f.filename = "" then
    { f with filename := normalizeFilename f.contentType f.encoding now } else f
  f

/-- The encoding tokens of an encoding string, exactly as
`normalizeFilename` parses them: spaces removed, split on commas. -/
def encTokens (encoding : String) : List String :=
  (splitChar ',' (removeSpaces encoding).toList).map String.mk

/- ### Lemmas for the filename-synthesis law -/

theorem splitChar_ne_nil (c : Char) (cs : List Char) : splitChar c cs ≠ [] := by
  cases cs with
  | nil => simp [splitChar]
  | cons x rest =>
    unfold splitChar
    by_cases hx : x = c
    · simp [hx]
    · simp only [if_neg hx]
      cases splitChar c rest with
      | nil => simp
      | cons g gs => simp

theorem filterMap_eq_map_of_forall_some {α β : Type} (f : α → Option β) (g : α → β) :
    ∀ (l : List α), (∀ a ∈ l, f a = some (g a)) → l.filterMap f = l.map g := by
  intro l
  induction l with
  | nil =>
    intro _
    rfl
  | cons x rest ih =>
    intro h
    rw [List.filterMap_cons, h x (List.mem_cons_self x rest), List.map_cons,
      ih (fun a ha => h a (List.mem_cons_of_mem x ha))]

theorem encExtStep_of_recognized (g : List Char)
    (h : String.mk g ∈ ["brotli", "gzip", "zstd"]) :
    encExtStep g = some ((compressionToExt.lookup (String.mk g)).getD "") := by
  simp only [List.mem_cons, List.not_mem_nil, or_false] at h
  unfold encExtStep
  rcases h with h | h | h
  all_goals rw [h]
  all_goals rfl

/-- C8: `NormalizeFile` fills only empty fields.
For `File{Filename: "test.json.gz"}` the content type becomes
`application/json` and the encoding `gzip`, with the filename untouched.
For the empty `File{}` under an injected clock instant the filename is
`upload_` + the instant in RFC3339 with no extension, and the content type
is `application/octet-stream`.  And whenever a filename is synthesized for
a non-octet-stream content type with a known extension and a non-empty
encoding whose tokens are all recognized, it is `upload_<RFC3339>` + the
content-type-derived extension + one extension per encoding token in
encoding order. -/
theorem normalizeFile_spec :
    (∀ now, NormalizeFile now { filename := "test.json.gz" } =
      { contentType := "application/json", encoding := "gzip",
        filename := "test.json.gz" }) ∧
    (∀ now, NormalizeFile now {} =
      { contentType := "application/octet-stream", encoding := "",
        filename := "upload_" ++ formatRFC3339 now }) ∧
    (∀ (now : GoTime) (ct enc : String),
      ct ≠ contentTypeOctetStream → extensionsByType ct ≠ [] → enc ≠ "" →
      (∀ tok ∈ encTokens enc, tok ∈ ["brotli", "gzip", "zstd"]) →
      normalizeFilename ct enc now =
        "upload_" ++ formatRFC3339 now ++ (extensionsByType ct).headD "" ++
          ("." ++ goJoin "." ((encTokens enc).map
            (fun tok => (compressionToExt.lookup tok).getD "")))) := by
  refine ⟨?_, ?_, ?_⟩
  · intro now
    rfl
  · intro now
    have h1 : NormalizeFile now {} =
        { contentType := contentTypeOctetStream, encoding := "",
          filename := ("upload_" ++ formatRFC3339 now) ++ "" ++ "",
          contents := .empty } := rfl
    rw [h1, String.append_empty, String.append_empty]
    rfl
  · intro now ct enc hct hext henc htoks
    have hall : ∀ g ∈ splitChar ',' (removeSpaces enc).toList,
        encExtStep g = some ((compressionToExt.lookup (String.mk g)).getD "") := by
      intro g hg
      exact encExtStep_of_recognized g (htoks _ (List.mem_map_of_mem String.mk hg))
    have hconv : (splitChar ',' (removeSpaces enc).toList).filterMap encExtStep =
        (encTokens enc).map (fun tok => (compressionToExt.lookup tok).getD "") := by
      rw [filterMap_eq_map_of_forall_some encExtStep
        (fun g => (compressionToExt.lookup (String.mk g)).getD "") _ hall]
      unfold encTokens
      rw [List.map_map]
      rfl
    have hlen : ((splitChar ',' (removeSpaces enc).toList).filterMap encExtStep).length > 0 := by
      rw [hconv]
      unfold encTokens
      simp only [List.length_map]
      exact List.length_pos.mpr (splitChar_ne_nil ',' (removeSpaces enc).toList)
    unfold normalizeFilename
    rw [if_pos henc, if_pos hlen, hconv]
    cases hE : extensionsByType ct with
    | nil => exact absurd hE hext
    | cons e es =>
      rw [if_pos hct]
      rfl

/-- C8 (witness): the three clauses at the fixed instant
0001-01-01T01:00:00Z — `test.json.gz` gains type `application/json` and
encoding `gzip`; the empty file becomes
`upload_0001-01-01T01:00:00Z` with octet-stream type; and a JSON file with
encoding `zstd, gzip` synthesizes `upload_0001-01-01T01:00:00Z.json.zst.gz`. -/
theorem normalizeFile_spec_witness :
    NormalizeFile { hour := 1 } { filename := "test.json.gz" } =
      { contentType := "application/json", encoding := "gzip",
        filename := "test.json.gz" } ∧
    NormalizeFile { hour := 1 } {} =
      { contentType := "application/octet-stream", encoding := "",
        filename := "upload_0001-01-01T01:00:00Z" } ∧
    normalizeFilename "application/json" "zstd, gzip" { hour := 1 } =
      "upload_0001-01-01T01:00:00Z.json.zst.gz" := by
  refine ⟨normalizeFile_spec.1 { hour := 1 }, ?_, ?_⟩
  · rw [normalizeFile_spec.2.1 { hour := 1 }]
    rfl
  · rw [normalizeFile_spec.2.2 { hour := 1 } "application/json" "zstd, gzip"
      (by decide) (by decide) (by decide) (by decide)]
    rfl

end FoundryFnGo
